import Mathlib

/-!
Verification of the searchfox-backed function resolver
(`bugbug/code_search/searchfox_api.py`).

The development shallowly embeds the module's pure decision logic:

* the definition classifier inside `search` (bucket selection, the
  substring pre-filter, and the per-language heuristics);
* the scope resolver (`get_line_number`, `get_functions`,
  `find_function_for_line`) over an abstract rendered-file-view tree;
* the resolution facade (`FunctionSearchSearchfoxAPI.definitions_to_results`,
  `get_function_by_line`) with the raw-file fetch passed in as a function,
  mirroring the injected `get_file` dependency.

Remote I/O is made explicit: each operation takes the remote response it
would have fetched as an argument, and fallible steps return `Except`.
Python strings are modelled at `Char` granularity via `String.toList`.
-/

set_option autoImplicit false

namespace Searchfox

/-! ## Character/string primitives mirroring the Python string operations -/

/-- Tests whether `sub` occurs in `l` starting at index `i` (used to model
Python's `sub in s` and `s.index(sub)` at character granularity). -/
def occursAt (l sub : List Char) (i : Nat) : Bool :=
  (l.drop i).take sub.length == sub

/-- Index of the first occurrence of `sub` in `s`, as Python's `s.index(sub)`
(and `none` exactly when Python's `sub in s` is `False`). -/
def firstIdx (s sub : String) : Option Nat :=
  (List.range (s.toList.length + 1)).find? (fun i => occursAt s.toList sub.toList i)

/-- Python's `sub in s` substring test. -/
def containsSub (s sub : String) : Bool :=
  (firstIdx s sub).isSome

/-- Python's `s.startswith(p)`. -/
def startswith (s p : String) : Bool :=
  s.toList.take p.toList.length == p.toList

/-- Python's `s.endswith(p)`. -/
def endswith (s p : String) : Bool :=
  s.toList.drop (s.toList.length - p.toList.length) == p.toList

/-- Python's `s[1:]`. -/
def dropFirst (s : String) : String :=
  ⟨s.toList.drop 1⟩

/-- A regex word character (`\w` over ASCII input): the model of the word
boundary `\b` below is exact for identifier-like symbol names, which is the
only shape of name `search` builds its `\bNAME\b` regex from. -/
def isWordChar (c : Char) : Bool :=
  c.isAlphanum || c == '_'

/-- Whether `\b{sub}\b` matches `l` at index `i`: `sub` occurs at `i` and is
not flanked by word characters. -/
def wordMatchAt (l sub : List Char) (i : Nat) : Bool :=
  occursAt l sub i
  && (i == 0 || !(match l.get? (i - 1) with | some c => isWordChar c | none => false))
  && !(match l.get? (i + sub.length) with | some c => isWordChar c | none => false)

/-- The model of `re.compile(rf"\b{symbol_name}\b").search(line)`: the start
index of the leftmost whole-word occurrence of `symbol_name` in `line`, or
`none` when the regex does not match (`symbol_word_position` in `search`). -/
def symbol_word_position (symbol_name line : String) : Option Nat :=
  (List.range (line.toList.length + 1)).find?
    (fun i => wordMatchAt line.toList symbol_name.toList i)

/-- The recurring guard `symbol_word_position is not None and
symbol_word_position < line.index(tok)` from the heuristics in `search`. -/
def posBefore (symbol_name line tok : String) : Bool :=
  match symbol_word_position symbol_name line, firstIdx line tok with
  | some p, some q => decide (p < q)
  | _, _ => false

/-- Splitting a text into its newline-separated lines, as `str.split("\n")`
(so joining the result back with a newline is the identity). -/
def splitLines : List Char → List (List Char)
  | [] => [[]]
  | c :: rest =>
    let r := splitLines rest
    if c = '\n' then [] :: r
    else
      match r with
      | [] => [[c]]
      | l :: ls => (c :: l) :: ls

/-- The lines of a fetched file's text. -/
def linesOf (s : String) : List String :=
  (splitLines s.toList).map (fun l => ⟨l⟩)

/-- Python's `"\n".join(lines)`, used to build `Function.source`. -/
def joinLines : List String → String
  | [] => ""
  | [l] => l
  | l :: ls => l ++ "\n" ++ joinLines ls

/-! ## The definition classifier inside `search`

`SOURCE_CODE_TYPES_TO_EXT` lives in `bugbug.repository`, which is not among
the sources; the extension groups are modelled from the spec's four language
families. No claim depends on the exact extension lists, only on membership
of a path's extension in one of the groups. -/

/-- Modelled from the spec: `SOURCE_CODE_TYPES_TO_EXT["Rust"]`, the extension
group of the systems language with `fn NAME` syntax. -/
def rustExts : List String := [".rs"]

/-- Modelled from the spec: `SOURCE_CODE_TYPES_TO_EXT["Javascript"]`, the
extension group of the web-scripting language. -/
def jsExts : List String := [".js", ".jsm", ".mjs", ".jsx", ".sjs"]

/-- Modelled from the spec: `SOURCE_CODE_TYPES_TO_EXT["C/C++"]`. -/
def cppExts : List String := [".c", ".cpp", ".cc", ".cxx", ".h", ".hh", ".hpp", ".hxx"]

/-- Modelled from the spec: `SOURCE_CODE_TYPES_TO_EXT["Objective-C/C++"]`. -/
def objcExts : List String := [".m", ".mm"]

/-- Modelled from the spec: `SOURCE_CODE_TYPES_TO_EXT["Python"]`, the
extension group of the dynamic scripting language with `def` syntax. -/
def pyExts : List String := [".py"]

/-- The dispatch test `any(value["path"].endswith(ext) for ext in exts)`. -/
def hasExt (exts : List String) (path : String) : Bool :=
  exts.any (fun e => endswith path e)

/-- One raw index hit as consumed by `search`: `value["path"]` and the single
matched source line `value["lines"][0]["line"]`. -/
structure IndexHit where
  path : String
  line : String
deriving DecidableEq, Repr

/-- One named bucket of the parsed index payload: a `sub_type` key and its
hit list. -/
structure Bucket where
  key : String
  values : List IndexHit
deriving DecidableEq, Repr

/-- The parsed index payload, grouped by the three categories `search`
iterates in order (a category absent from the JSON is an empty list). -/
structure IndexResults where
  normal : List Bucket
  thirdparty : List Bucket
  test : List Bucket
deriving DecidableEq, Repr

/-- The bucket-key test in `search`:
`sub_type.startswith("Definitions") and sub_type.endswith(f"{symbol_name})")`. -/
def isDefBucket (symbol_name key : String) : Bool :=
  startswith key "Definitions" && endswith key (symbol_name ++ ")")

/-- Definition following the spec's words (§6), for comparison with the
code's bucket matching: the Definitions bucket key of a symbol has the shape
`Definitions (NAME)`. -/
def definitionsBucketKey (symbol_name : String) : String :=
  "Definitions (" ++ symbol_name ++ ")"

/-- List concatenation over a map, written out so that every use in this file
evaluates by `rfl`/`decide` in the kernel. -/
def concatMap {α β : Type} (f : α → List β) : List α → List β
  | [] => []
  | a :: as => f a ++ concatMap f as

/-- The buckets of the payload in the iteration order of `search`
(`normal`, then `thirdparty`, then `test`). -/
def allBuckets (res : IndexResults) : List Bucket :=
  res.normal ++ res.thirdparty ++ res.test

/-- The candidate hits of a query: all hits of buckets whose key passes
`isDefBucket`, in iteration order. -/
def candidates (symbol_name : String) (res : IndexResults) : List IndexHit :=
  concatMap (fun b => if isDefBucket symbol_name b.key then b.values else []) (allBuckets res)

/-- The per-extension heuristic applied to a candidate hit, exactly as the
`if`/`elif` chain of `search`. The Rust branch reproduces the source
verbatim: it tests for the literal text `fn {symbol_name}` (the Python
string lacks the `f` prefix), not for `"fn " + symbol_name`. -/
def acceptHit (symbol_name : String) (hit : IndexHit) : Bool :=
  if hasExt rustExts hit.path then
    containsSub hit.line "fn \x7bsymbol_name\x7d"
    || (containsSub hit.line "|" && posBefore symbol_name hit.line "|")
  else if hasExt jsExts hit.path then
    containsSub hit.line (symbol_name ++ "(")
    || containsSub hit.line ("function " ++ symbol_name)
    || (containsSub hit.line "function" && posBefore symbol_name hit.line "function")
    || (containsSub hit.line "=>" && posBefore symbol_name hit.line "=>")
  else if hasExt (cppExts ++ objcExts) hit.path then
    containsSub hit.line (symbol_name ++ "(")
    || (containsSub hit.line "->" && posBefore symbol_name hit.line "->")
  else if hasExt pyExts hit.path then
    containsSub hit.line ("def " ++ symbol_name ++ "(")
    || (containsSub hit.line "lambda" && posBefore symbol_name hit.line "lambda")
  else true

/-- Whether a candidate hit ends up in `definitions`: the pre-filter
`if symbol_name not in line: continue` evaluates first (on its failure the
heuristic is never reached), then the heuristic chain. -/
def classifyHit (symbol_name : String) (hit : IndexHit) : Bool :=
  containsSub hit.line symbol_name && acceptHit symbol_name hit

/-- The `definitions` list accumulated by `search`. -/
def definitionsOf (symbol_name : String) (res : IndexResults) : List IndexHit :=
  (candidates symbol_name res).filter (fun h => classifyHit symbol_name h)

/-- Deduplication of the accepted paths; `search` uses
`list(set(...))`, whose membership this models (Python's set iteration
order is unspecified, so only membership and duplicate-freeness are
meaningful). -/
def dedup : List String → List String
  | [] => []
  | p :: ps => if ps.elem p then dedup ps else p :: dedup ps

/-- The classifier's output: the deduplicated file paths of the accepted
hits (`paths` in `search`). -/
def classify (symbol_name : String) (res : IndexResults) : List String :=
  dedup ((definitionsOf symbol_name res).map (fun h => h.path))

/-! ## The scope resolver (`get_line_number`, `get_functions`,
`find_function_for_line`)

The rendered file view is an abstract tree of HTML elements; of each element
the code only ever reads the `data-nesting-sym` attribute, the `id`
attribute (always of the shape `line-N` where present and relevant), and the
child list. `lineId` is the parsed `id`: `none` stands for an element whose
`id` is absent or not of the `line-` shape, on which the Python
`int(element.get("id")[len("line-"):])` would raise. -/

mutual
inductive HtmlNode where
  | elem (nestingSym : Option String) (lineId : Option Nat) (children : HtmlForest)
deriving Repr
inductive HtmlForest where
  | nil
  | cons (head : HtmlNode) (tail : HtmlForest)
deriving Repr
end

/-- The `data-nesting-sym` attribute, when present. -/
def HtmlNode.symAttr : HtmlNode → Option String
  | .elem s _ _ => s

/-- The line number parsed from the `id` attribute, when well-formed. -/
def HtmlNode.lineOf : HtmlNode → Option Nat
  | .elem _ i _ => i

/-- The element's child forest, in document order. -/
def HtmlNode.childNodes : HtmlNode → HtmlForest
  | .elem _ _ cs => cs

/-- A child forest as a plain list. -/
def HtmlForest.toList : HtmlForest → List HtmlNode
  | .nil => []
  | .cons c t => c :: t.toList

mutual
/-- The embedding of `get_line_number(element, "start")`: `next(iter(elements))` selects the
first child; while the selected element carries `data-nesting-sym` the
function recurses into that element's own children, and otherwise it parses
the `line-N` id. `none` stands for the exceptions of the Python function (no
element to select, or a missing/malformed `id`). -/
def get_line_number_start : HtmlNode → Option Nat
  | .elem _ _ cs => glnStartForest cs
def glnStartForest : HtmlForest → Option Nat
  | .nil => none
  | .cons c _ =>
    match c with
    | .elem (some _) _ _ => get_line_number_start c
    | .elem none i _ => i
end

mutual
/-- The embedding of `get_line_number(element, "end")`: `*_, element = iter(elements)` selects
the last child; otherwise exactly as `get_line_number_start`. -/
def get_line_number_end : HtmlNode → Option Nat
  | .elem _ _ cs => glnEndForest cs
def glnEndForest : HtmlForest → Option Nat
  | .nil => none
  | .cons c .nil =>
    match c with
    | .elem (some _) _ _ => get_line_number_end c
    | .elem none i _ => i
  | .cons _ t => glnEndForest t
end

mutual
/-- All proper descendants of an element in document (preorder) order:
`element.iterdescendants()`. -/
def descendants : HtmlNode → List HtmlNode
  | .elem _ _ cs => descendantsForest cs
def descendantsForest : HtmlForest → List HtmlNode
  | .nil => []
  | .cons c t => c :: (descendants c ++ descendantsForest t)
end

/-- The `sym_wraps` of `get_functions`: descendants of the `#file` element
carrying `data-nesting-sym`, filtered by the optional substring name filter
(`symbol_name is None or symbol_name in element.attrib["data-nesting-sym"]`). -/
def sym_wraps (symbol_name : Option String) (file : HtmlNode) : List HtmlNode :=
  (descendants file).filter (fun e =>
    e.symAttr.isSome &&
      match symbol_name, e.symAttr with
      | none, _ => true
      | some s, some a => containsSub a s
      | some _, none => false)

/-- One entry of the list `get_functions` returns: the dict
`{"name": ..., "path": ..., "start": ..., "end": ...}`. -/
structure Func where
  name : String
  path : String
  start : Nat
  end_ : Nat
deriving DecidableEq, Repr

/-- Builds one `functions` entry from a `sym_wrap`: the name is
`sym_wrap.attrib["data-nesting-sym"][1:]` and the boundaries come from
`get_line_number`. `none` stands for the exceptions the Python loop body can
raise while computing the boundaries. -/
def nodeFunc (path : String) (e : HtmlNode) : Option Func :=
  match e.symAttr with
  | none => none
  | some a =>
    match get_line_number_start e, get_line_number_end e with
    | some s, some en => some ⟨dropFirst a, path, s, en⟩
    | _, _ => none

/-- Errors of the embedded operations: a non-404 HTTP failure
(`raise_for_status`), a parsing failure while reading the annotations, and a
failure of the injected raw-content `get_file` dependency. -/
inductive ApiError where
  | httpError (code : Nat)
  | parseError
  | fetchFailure (msg : String)
deriving DecidableEq, Repr

/-- The remote response of the rendered-file-view lookup
`https://searchfox.org/mozilla-central/source/{path}`: a 404, another
non-success status, or a page whose single `#file` element is `file`. -/
inductive FileViewResponse where
  | notFound
  | httpFailure (code : Nat)
  | ok (file : HtmlNode)

/-- The `functions` accumulation loop of `get_functions`: builds one entry
per `sym_wrap` in order, propagating the first boundary-computation failure. -/
def collectFuncs (path : String) : List HtmlNode → Except ApiError (List Func)
  | [] => .ok []
  | e :: es =>
    match nodeFunc path e with
    | none => .error .parseError
    | some f =>
      match collectFuncs path es with
      | .error err => .error err
      | .ok fs => .ok (f :: fs)

/-- The URL `get_functions` queries; it takes the commit hash as the Python
function does and, like it, ignores it. -/
def get_functions_url (commit_hash path : String) : String :=
  "https://searchfox.org/mozilla-central/source/" ++ path

/-- The embedding of `get_functions(commit_hash, path, symbol_name)`, with the remote response
passed in explicitly. A 404 yields `ok []` after a warning log; any other
non-success status propagates via `raise_for_status`. -/
def get_functions (commit_hash : String) (resp : FileViewResponse) (path : String)
    (symbol_name : Option String) : Except ApiError (List Func) :=
  match resp with
  | .notFound => .ok []
  | .httpFailure code => .error (.httpError code)
  | .ok file => collectFuncs path (sym_wraps symbol_name file)

/-- The selection loop of `find_function_for_line`: scan the functions in
order, keeping the current candidate unless a containing scope with a
strictly larger `start` appears. -/
def selectFunctionAux (line : Nat) : Option Func → List Func → Option Func
  | sel, [] => sel
  | sel, f :: fs =>
    selectFunctionAux line
      (if f.start ≤ line ∧ line ≤ f.end_ then
        match sel with
        | none => some f
        | some s => if s.start < f.start then some f else some s
      else sel) fs

/-- The embedding of `find_function_for_line(commit_hash, path, line)`. -/
def find_function_for_line (commit_hash : String) (resp : FileViewResponse)
    (path : String) (line : Nat) : Except ApiError (Option Func) :=
  match get_functions commit_hash resp path none with
  | .error err => .error err
  | .ok fs => .ok (selectFunctionAux line none fs)

/-! ## `search` and the resolution facade -/

/-- The URL `search` queries; like the Python function it takes the commit
hash and ignores it. -/
def search_url (commit_hash symbol_name : String) : String :=
  "https://searchfox.org/mozilla-central/search?q=id:" ++ symbol_name

/-- The per-path expansion at the end of `search`:
`sum((get_functions(commit_hash, path, symbol_name) for path in paths), [])`,
with the rendered-file-view response of each path supplied by `fileResp`. -/
def searchPaths (commit_hash : String) (fileResp : String → FileViewResponse)
    (symbol_name : String) : List String → Except ApiError (List Func)
  | [] => .ok []
  | p :: ps =>
    match get_functions commit_hash (fileResp p) p (some symbol_name) with
    | .error err => .error err
    | .ok fs =>
      match searchPaths commit_hash fileResp symbol_name ps with
      | .error err => .error err
      | .ok rest => .ok (fs ++ rest)

/-- The embedding of `search(commit_hash, symbol_name)` given the parsed index payload
(`results` after the `var results = ` extraction and `json.loads`, whose
text-level workarounds are not modelled) and the rendered-file-view
responses. -/
def search (commit_hash : String) (fileResp : String → FileViewResponse)
    (results : IndexResults) (symbol_name : String) : Except ApiError (List Func) :=
  searchPaths commit_hash fileResp symbol_name (classify symbol_name results)

/-- Modelled from the spec: the `Function` record of
`bugbug.code_search.function_search` (not among the sources), §3's
`{name, startLine, path, sourceText}`, in the positional order of the
constructor call in `definitions_to_results`. -/
structure Function where
  name : String
  start : Nat
  path : String
  source : String
deriving DecidableEq, Repr

/-- Modelled from the spec: `searchfox_data.extract_source` (not among the
sources) returns the literal lines of the file whose 1-based line numbers
fall in `[startLine, endExcl)` (§4.3), here over the already-fetched line
list instead of the `read_mc_path` reader. -/
def extract_source (fileLines : List String) (startLine endExcl : Nat) : List String :=
  (fileLines.take (endExcl - 1)).drop (startLine - 1)

/-- The end bound `definitions_to_results` passes to `extract_source`:
`definition["end"] + 1 if definition["end"] != definition["start"] else
definition["end"]`. -/
def endBound (d : Func) : Nat :=
  if d.end_ ≠ d.start then d.end_ + 1 else d.end_

/-- Python's `commit_hash or "tip"` on the string commit identifier. -/
def orTip (commit_hash : String) : String :=
  if commit_hash = "" then "tip" else commit_hash

/-- The embedding of `FunctionSearchSearchfoxAPI.definitions_to_results(commit_hash,
definitions)`: one `Function` per definition, its source text the
newline-join of the extracted lines; the injected `get_file` is consulted at
`commit_hash or "tip"` and a failure of it propagates. -/
def definitions_to_results (get_file : String → String → Except ApiError String)
    (commit_hash : String) : List Func → Except ApiError (List Function)
  | [] => .ok []
  | d :: ds =>
    match get_file (orTip commit_hash) d.path with
    | .error err => .error err
    | .ok content =>
      match definitions_to_results get_file commit_hash ds with
      | .error err => .error err
      | .ok rest =>
        .ok (⟨d.name, d.start, d.path,
              joinLines (extract_source (linesOf content) d.start (endBound d))⟩ :: rest)

/-- The embedding of `FunctionSearchSearchfoxAPI.get_function_by_line(commit_hash, path,
line)`. -/
def get_function_by_line (get_file : String → String → Except ApiError String)
    (commit_hash : String) (resp : FileViewResponse) (path : String) (line : Nat) :
    Except ApiError (List Function) :=
  match find_function_for_line (orTip commit_hash) resp path line with
  | .error err => .error err
  | .ok none => .ok []
  | .ok (some d) => definitions_to_results get_file commit_hash [d]

/-- The embedding of `FunctionSearchSearchfoxAPI.get_function_by_name(commit_hash, path,
function_name)`. -/
def get_function_by_name (get_file : String → String → Except ApiError String)
    (commit_hash : String) (fileResp : String → FileViewResponse)
    (results : IndexResults) (function_name : String) :
    Except ApiError (List Function) :=
  match search (orTip commit_hash) fileResp results function_name with
  | .error err => .error err
  | .ok defs => definitions_to_results get_file commit_hash defs

/-! ## Supporting lemmas -/

theorem mem_concatMap {α β : Type} (f : α → List β) (l : List α) (b : β) :
    b ∈ concatMap f l ↔ ∃ a, a ∈ l ∧ b ∈ f a := by
  induction l with
  | nil => simp [concatMap]
  | cons x xs ih =>
    simp only [concatMap, List.mem_append, ih, List.mem_cons]
    constructor
    · rintro (h | ⟨a, ha, hb⟩)
      · exact ⟨x, Or.inl rfl, h⟩
      · exact ⟨a, Or.inr ha, hb⟩
    · rintro ⟨a, rfl | ha, hb⟩
      · exact Or.inl hb
      · exact Or.inr ⟨a, ha, hb⟩

theorem mem_dedup (l : List String) (p : String) : p ∈ dedup l ↔ p ∈ l := by
  induction l with
  | nil => simp [dedup]
  | cons x xs ih =>
    by_cases h : x ∈ xs
    · have hb : xs.elem x = true := List.elem_iff.mpr h
      simp only [dedup]
      rw [if_pos hb, ih, List.mem_cons]
      constructor
      · exact fun hp => Or.inr hp
      · rintro (rfl | hp)
        · exact h
        · exact hp
    · have hb : ¬xs.elem x = true := fun hc => h (List.elem_iff.mp hc)
      simp only [dedup]
      rw [if_neg hb, List.mem_cons, List.mem_cons, ih]

theorem nodup_dedup (l : List String) : (dedup l).Nodup := by
  induction l with
  | nil => simp [dedup]
  | cons x xs ih =>
    by_cases h : x ∈ xs
    · have hb : xs.elem x = true := List.elem_iff.mpr h
      simp only [dedup]
      rw [if_pos hb]
      exact ih
    · have hb : ¬xs.elem x = true := fun hc => h (List.elem_iff.mp hc)
      simp only [dedup]
      rw [if_neg hb]
      exact List.nodup_cons.mpr ⟨fun hx => h ((mem_dedup xs x).mp hx), ih⟩

theorem mem_candidates (symbol_name : String) (res : IndexResults) (hit : IndexHit) :
    hit ∈ candidates symbol_name res ↔
      ∃ b, b ∈ allBuckets res ∧ isDefBucket symbol_name b.key = true ∧ hit ∈ b.values := by
  unfold candidates
  rw [mem_concatMap]
  constructor
  · rintro ⟨b, hb, hv⟩
    by_cases h : isDefBucket symbol_name b.key
    · exact ⟨b, hb, h, by simpa [h] using hv⟩
    · simp [h] at hv
  · rintro ⟨b, hb, h, hv⟩
    exact ⟨b, hb, by simp [h, hv]⟩

theorem toList_append (a b : String) : (a ++ b).toList = a.toList ++ b.toList := by
  cases a
  cases b
  rfl

theorem definitionsBucketKey_toList (s : String) :
    (definitionsBucketKey s).toList = ("Definitions (".toList ++ s.toList) ++ [')'] := by
  unfold definitionsBucketKey
  rw [toList_append, toList_append]
  rfl

theorem isDefBucket_of_exact (s : String) : isDefBucket s (definitionsBucketKey s) = true := by
  unfold isDefBucket
  have hstart : startswith (definitionsBucketKey s) "Definitions" = true := by
    unfold startswith
    rw [definitionsBucketKey_toList, List.append_assoc]
    have h1113 : ("Definitions" : String).toList.length ≤
        ("Definitions (" : String).toList.length := by decide
    rw [List.take_append_of_le_length h1113]
    decide
  have hend : endswith (definitionsBucketKey s) (s ++ ")") = true := by
    unfold endswith
    have hr : (")" : String).toList = [')'] := rfl
    rw [definitionsBucketKey_toList, List.append_assoc, toList_append, hr]
    have hlen : (("Definitions (" : String).toList ++ (s.toList ++ [')'])).length -
        (s.toList ++ [')']).length = ("Definitions (" : String).toList.length := by
      simp only [List.length_append]
      omega
    rw [hlen, List.drop_left]
    simp
  rw [hstart, hend]
  rfl

theorem extract_source_self (ls : List String) (s : Nat) : extract_source ls s s = [] := by
  unfold extract_source
  apply List.drop_eq_nil_of_le
  simp [List.length_take]

theorem dtr_get (get_file : String → String → Except ApiError String) (c : String) :
    ∀ (defs : List Func) (fns : List Function) (i : Nat) (d : Func) (fn : Function),
      definitions_to_results get_file c defs = .ok fns →
      defs.get? i = some d → fns.get? i = some fn →
      ∃ content, get_file (orTip c) d.path = .ok content ∧
        fn = ⟨d.name, d.start, d.path,
          joinLines (extract_source (linesOf content) d.start (endBound d))⟩ := by
  intro defs
  induction defs with
  | nil => intro fns i d fn h h1 h2; simp at h1
  | cons d0 ds ih =>
    intro fns i d fn h h1 h2
    simp only [definitions_to_results] at h
    split at h
    · exact absurd h (by simp)
    · rename_i content hg
      split at h
      · exact absurd h (by simp)
      · rename_i rest hr
        injection h with h
        subst h
        cases i with
        | zero =>
          simp only [List.get?_cons_zero, Option.some.injEq] at h1 h2
          subst h1
          subst h2
          exact ⟨content, hg, rfl⟩
        | succ n =>
          simp only [List.get?_cons_succ] at h1 h2
          exact ih rest n d fn hr h1 h2

theorem collectFuncs_mem (path : String) :
    ∀ (ws : List HtmlNode) (fs : List Func) (f : Func),
      collectFuncs path ws = .ok fs → f ∈ fs →
      ∃ e, e ∈ ws ∧ nodeFunc path e = some f := by
  intro ws
  induction ws with
  | nil =>
    intro fs f h hf
    simp only [collectFuncs, Except.ok.injEq] at h
    subst h
    simp at hf
  | cons e es ih =>
    intro fs f h hf
    simp only [collectFuncs] at h
    split at h
    · exact absurd h (by simp)
    · rename_i f0 hnf
      split at h
      · exact absurd h (by simp)
      · rename_i fs0 hr
        injection h with h
        subst h
        rcases List.mem_cons.mp hf with rfl | hf0
        · exact ⟨e, List.mem_cons_self e es, hnf⟩
        · obtain ⟨e1, he1, hnf1⟩ := ih fs0 f hr hf0
          exact ⟨e1, List.mem_cons_of_mem e he1, hnf1⟩

theorem dropFirst_ne (a : String) (h : a ≠ "") : dropFirst a ≠ a := by
  cases a with
  | mk data =>
    cases data with
    | nil => exact absurd rfl h
    | cons c cs =>
      intro he
      have h2 : cs = c :: cs := congrArg String.data he
      simp at h2

theorem selectAux_eq_none (line : Nat) :
    ∀ (fs : List Func) (sel : Option Func),
      selectFunctionAux line sel fs = none ↔
        sel = none ∧ ∀ f ∈ fs, ¬(f.start ≤ line ∧ line ≤ f.end_) := by
  intro fs
  induction fs with
  | nil => intro sel; simp [selectFunctionAux]
  | cons f fs ih =>
    intro sel
    simp only [selectFunctionAux]
    rw [ih]
    by_cases hc : f.start ≤ line ∧ line ≤ f.end_
    · rw [if_pos hc]
      cases sel with
      | none => simp [hc, List.forall_mem_cons]
      | some s =>
        have hne : (match (some s : Option Func) with
            | none => some f
            | some s' => if s'.start < f.start then some f else some s') ≠ none := by
          show (if s.start < f.start then some f else some s) ≠ none
          split <;> simp
        simp [hne, hc, List.forall_mem_cons]
    · rw [if_neg hc]
      constructor
      · rintro ⟨h1, h2⟩
        refine ⟨h1, ?_⟩
        intro g hg
        rcases List.mem_cons.mp hg with rfl | hg1
        · exact hc
        · exact h2 g hg1
      · rintro ⟨h1, h2⟩
        exact ⟨h1, fun g hg => h2 g (List.mem_cons_of_mem f hg)⟩

theorem selectAux_some_acc (line : Nat) :
    ∀ (fs : List Func) (s f : Func),
      selectFunctionAux line (some s) fs = some f →
      (f = s ∧ ∀ g ∈ fs, g.start ≤ line → line ≤ g.end_ → g.start ≤ s.start) ∨
      ((f.start ≤ line ∧ line ≤ f.end_) ∧ s.start < f.start ∧
        ∃ l₁ l₂, fs = l₁ ++ f :: l₂ ∧
          (∀ g ∈ l₁, g.start ≤ line → line ≤ g.end_ → g.start < f.start) ∧
          (∀ g ∈ l₂, g.start ≤ line → line ≤ g.end_ → g.start ≤ f.start)) := by
  intro fs
  induction fs with
  | nil =>
    intro s f h
    simp only [selectFunctionAux] at h
    injection h with h
    subst h
    exact Or.inl ⟨rfl, by simp⟩
  | cons f0 fs ih =>
    intro s f h
    simp only [selectFunctionAux] at h
    by_cases hc : f0.start ≤ line ∧ line ≤ f0.end_
    · rw [if_pos hc] at h
      by_cases hlt : s.start < f0.start
      · rw [if_pos hlt] at h
        rcases ih f0 f h with ⟨rfl, hmax⟩ | ⟨hcf, hlt2, l₁, l₂, rfl, hstrict, hrest⟩
        · right
          exact ⟨hc, hlt, [], fs, rfl, by simp, fun g hg h1 h2 => hmax g hg h1 h2⟩
        · right
          refine ⟨hcf, lt_trans hlt hlt2, f0 :: l₁, l₂, rfl, ?_, hrest⟩
          intro g hg h1 h2
          rcases List.mem_cons.mp hg with rfl | hg1
          · exact hlt2
          · exact hstrict g hg1 h1 h2
      · rw [if_neg hlt] at h
        rcases ih s f h with ⟨rfl, hmax⟩ | ⟨hcf, hlt2, l₁, l₂, rfl, hstrict, hrest⟩
        · left
          refine ⟨rfl, ?_⟩
          intro g hg h1 h2
          rcases List.mem_cons.mp hg with rfl | hg1
          · omega
          · exact hmax g hg1 h1 h2
        · right
          refine ⟨hcf, hlt2, f0 :: l₁, l₂, rfl, ?_, hrest⟩
          intro g hg h1 h2
          rcases List.mem_cons.mp hg with rfl | hg1
          · omega
          · exact hstrict g hg1 h1 h2
    · rw [if_neg hc] at h
      rcases ih s f h with ⟨rfl, hmax⟩ | ⟨hcf, hlt2, l₁, l₂, rfl, hstrict, hrest⟩
      · left
        refine ⟨rfl, ?_⟩
        intro g hg h1 h2
        rcases List.mem_cons.mp hg with rfl | hg1
        · exact absurd ⟨h1, h2⟩ hc
        · exact hmax g hg1 h1 h2
      · right
        refine ⟨hcf, hlt2, f0 :: l₁, l₂, rfl, ?_, hrest⟩
        intro g hg h1 h2
        rcases List.mem_cons.mp hg with rfl | hg1
        · exact absurd ⟨h1, h2⟩ hc
        · exact hstrict g hg1 h1 h2

theorem selectAux_some_none (line : Nat) (fs : List Func) (f : Func)
    (h : selectFunctionAux line none fs = some f) :
    (f.start ≤ line ∧ line ≤ f.end_) ∧
    (∀ g ∈ fs, g.start ≤ line → line ≤ g.end_ → g.start ≤ f.start) ∧
    ∃ l₁ l₂, fs = l₁ ++ f :: l₂ ∧
      ∀ g ∈ l₁, g.start ≤ line → line ≤ g.end_ → g.start < f.start := by
  induction fs with
  | nil => simp [selectFunctionAux] at h
  | cons f0 fs ih =>
    simp only [selectFunctionAux] at h
    by_cases hc : f0.start ≤ line ∧ line ≤ f0.end_
    · rw [if_pos hc] at h
      rcases selectAux_some_acc line fs f0 f h with ⟨rfl, hmax⟩ |
        ⟨hcf, hlt2, l₁, l₂, rfl, hstrict, hrest⟩
      · refine ⟨hc, ?_, [], fs, rfl, by simp⟩
        intro g hg h1 h2
        rcases List.mem_cons.mp hg with rfl | hg1
        · exact le_refl _
        · exact hmax g hg1 h1 h2
      · refine ⟨hcf, ?_, f0 :: l₁, l₂, rfl, ?_⟩
        · intro g hg h1 h2
          rcases List.mem_cons.mp hg with rfl | hg1
          · omega
          · rcases List.mem_append.mp hg1 with hgl | hgr
            · exact le_of_lt (hstrict g hgl h1 h2)
            · rcases List.mem_cons.mp hgr with rfl | hgl2
              · exact le_refl _
              · exact hrest g hgl2 h1 h2
        · intro g hg h1 h2
          rcases List.mem_cons.mp hg with rfl | hg1
          · exact hlt2
          · exact hstrict g hg1 h1 h2
    · rw [if_neg hc] at h
      obtain ⟨hcf, hmax, l₁, l₂, hdec, hstrict⟩ := ih h
      refine ⟨hcf, ?_, f0 :: l₁, l₂, by simp [hdec], ?_⟩
      · intro g hg h1 h2
        rcases List.mem_cons.mp hg with rfl | hg1
        · exact absurd ⟨h1, h2⟩ hc
        · exact hmax g hg1 h1 h2
      · intro g hg h1 h2
        rcases List.mem_cons.mp hg with rfl | hg1
        · exact absurd ⟨h1, h2⟩ hc
        · exact hstrict g hg1 h1 h2

theorem searchPaths_commit (fileResp : String → FileViewResponse) (symbol_name : String)
    (c₁ c₂ : String) :
    ∀ ps, searchPaths c₁ fileResp symbol_name ps = searchPaths c₂ fileResp symbol_name ps := by
  intro ps
  induction ps with
  | nil => rfl
  | cons p ps ih =>
    simp only [searchPaths]
    rw [ih]
    rfl

theorem orTip_idem (c : String) : orTip (orTip c) = orTip c := by
  by_cases h : c = ""
  · subst h
    rfl
  · have h1 : orTip c = c := by
      unfold orTip
      rw [if_neg h]
    rw [h1, h1]

theorem dtr_orTip (get_file : String → String → Except ApiError String) (c : String) :
    ∀ defs, definitions_to_results get_file c defs =
      definitions_to_results get_file (orTip c) defs := by
  intro defs
  induction defs with
  | nil => rfl
  | cons d ds ih =>
    simp only [definitions_to_results]
    rw [orTip_idem, ih]

/-! ## The claims -/

/-- C1: the claim states that the classifier accepts a Rust-extension hit
whose matched line contains the token `fn ` immediately followed by the
symbol name. The code instead tests membership of the literal text
`fn {symbol_name}` (the Python string lacks the `f` prefix), so the hit
below — whose line contains `fn foo` for symbol `foo` — is rejected even
though the claim's condition holds, while a line containing the literal
brace text is accepted. The code's own comment (`"fn FUNCTION_NAME"`)
describes the claimed behaviour, so this is a slip in the code; the theorem
evaluates the classifier at the failing input. -/
theorem C1_rust_fn_literal_code_bug :
    hasExt rustExts "gfx/lib.rs" = true ∧
    containsSub "fn foo(x: u32)" "foo" = true ∧
    containsSub "fn foo(x: u32)" ("fn " ++ "foo") = true ∧
    classifyHit "foo" ⟨"gfx/lib.rs", "fn foo(x: u32)"⟩ = false ∧
    classifyHit "foo" ⟨"gfx/lib.rs", "foo fn \x7bsymbol_name\x7d"⟩ = true := by
  exact ⟨by decide, by decide, by decide, by decide, by decide⟩

/-- C2 fixture: a rendered file view with one single-line scope `[5, 5]`. -/
def c2wrap : HtmlNode :=
  .elem (some "#outer") none (.cons (.elem none (some 5) .nil) .nil)

def c2file : HtmlNode := .elem none none (.cons c2wrap .nil)

/-- C2 counterexample: for a single-line scope (`startLine = endLine = 5`)
resolve-by-line returns a `Function` whose `sourceText` is empty rather than
the one literal line `l5 = endLine - startLine + 1` lines, refuting the
claim for scopes with `startLine = endLine`. -/
theorem C2_counterexample :
    get_function_by_line (fun _ _ => .ok "l1\nl2\nl3\nl4\nl5") "" (.ok c2file) "p" 5 =
      .ok [⟨"outer", 5, "p", ""⟩] ∧
    joinLines (((linesOf "l1\nl2\nl3\nl4\nl5").take 5).drop 4) = "l5" ∧
    ("" : String) ≠ "l5" := by
  exact ⟨rfl, by decide, by decide⟩

/-- C2 (amended): for every resolved `Function` whose scope has
`startLine ≠ endLine` (and whose bounds lie inside the fetched file), the
`sourceText` is the newline-join of the literal file lines from `startLine`
through `endLine` inclusive — `endLine - startLine + 1` lines; for a scope
with `startLine = endLine` the `sourceText` is empty. -/
theorem C2_sourceText_amended :
    (∀ (get_file : String → String → Except ApiError String) (c : String)
        (defs : List Func) (fns : List Function) (i : Nat) (d : Func) (fn : Function)
        (content : String),
      definitions_to_results get_file c defs = .ok fns →
      defs.get? i = some d → fns.get? i = some fn →
      get_file (orTip c) d.path = .ok content →
      1 ≤ d.start → d.start ≤ d.end_ → d.start ≠ d.end_ →
      d.end_ ≤ (linesOf content).length →
      fn.name = d.name ∧ fn.start = d.start ∧ fn.path = d.path ∧
      fn.source = joinLines (((linesOf content).take d.end_).drop (d.start - 1)) ∧
      (((linesOf content).take d.end_).drop (d.start - 1)).length = d.end_ - d.start + 1) ∧
    (∀ (get_file : String → String → Except ApiError String) (c : String)
        (defs : List Func) (fns : List Function) (i : Nat) (d : Func) (fn : Function),
      definitions_to_results get_file c defs = .ok fns →
      defs.get? i = some d → fns.get? i = some fn →
      d.start = d.end_ →
      fn.source = "") := by
  constructor
  · intro gf c defs fns i d fn content h h1 h2 hgf hs1 hse hne hlen
    obtain ⟨content2, hgf2, hfn⟩ := dtr_get gf c defs fns i d fn h h1 h2
    rw [hgf] at hgf2
    injection hgf2 with hgf2
    subst hgf2
    have hEnd : endBound d = d.end_ + 1 := by
      unfold endBound
      rw [if_pos (fun e => hne e.symm)]
    have hExtract : extract_source (linesOf content) d.start (endBound d) =
        ((linesOf content).take d.end_).drop (d.start - 1) := by
      rw [hEnd]
      unfold extract_source
      simp
    subst hfn
    refine ⟨rfl, rfl, rfl, ?_, ?_⟩
    · show joinLines (extract_source (linesOf content) d.start (endBound d)) = _
      rw [hExtract]
    · rw [List.length_drop, List.length_take, Nat.min_eq_left hlen]
      omega
  · intro gf c defs fns i d fn h h1 h2 hse
    obtain ⟨content, hgf, hfn⟩ := dtr_get gf c defs fns i d fn h h1 h2
    have hEnd : endBound d = d.end_ := by
      unfold endBound
      rw [if_neg (by omega)]
    subst hfn
    show joinLines (extract_source (linesOf content) d.start (endBound d)) = ""
    rw [hEnd, ← hse, extract_source_self]
    rfl

/-- C2 witness: a two-line scope `[1, 2]` over a three-line file resolves to
source text `l1\nl2`, matching the amended statement at a concrete input. -/
theorem C2_witness :
    definitions_to_results (fun _ _ => .ok "l1\nl2\nl3") "tip" [⟨"f", "p", 1, 2⟩] =
      .ok [⟨"f", 1, "p", "l1\nl2"⟩] ∧
    ("l1\nl2" : String) = joinLines (((linesOf "l1\nl2\nl3").take 2).drop 0) ∧
    (((linesOf "l1\nl2\nl3").take 2).drop 0).length = 2 := by
  have h := C2_sourceText_amended.1 (fun _ _ => .ok "l1\nl2\nl3") "tip"
    [⟨"f", "p", 1, 2⟩] [⟨"f", 1, "p", "l1\nl2"⟩] 0 ⟨"f", "p", 1, 2⟩ ⟨"f", 1, "p", "l1\nl2"⟩
    "l1\nl2\nl3" rfl rfl rfl rfl (by decide) (by decide) (by decide) (by decide)
  exact ⟨rfl, h.2.2.2.1, h.2.2.2.2⟩

/-- C3: among the scopes of a file whose `[start, end]` interval contains the
line, `find_function_for_line` returns the one with the largest `start`
(ties broken in favour of the first-seen scope), and returns `none` — inside
a non-error `ok` result — exactly when no scope contains the line. The list
decomposition expresses the tie-break: every containing scope listed before
the selected one has a strictly smaller `start`. -/
theorem C3_enclosing_scope :
    ∀ (commit_hash : String) (resp : FileViewResponse) (path : String) (line : Nat)
      (fs : List Func) (r : Option Func),
      get_functions commit_hash resp path none = .ok fs →
      find_function_for_line commit_hash resp path line = .ok r →
      ((r = none ↔ ∀ f ∈ fs, ¬(f.start ≤ line ∧ line ≤ f.end_)) ∧
       (∀ f, r = some f →
          (f.start ≤ line ∧ line ≤ f.end_) ∧
          (∀ g ∈ fs, g.start ≤ line → line ≤ g.end_ → g.start ≤ f.start) ∧
          ∃ l₁ l₂, fs = l₁ ++ f :: l₂ ∧
            ∀ g ∈ l₁, g.start ≤ line → line ≤ g.end_ → g.start < f.start)) := by
  intro c resp path line fs r hg hf
  simp only [find_function_for_line, hg] at hf
  injection hf with hf
  subst hf
  constructor
  · rw [selectAux_eq_none]
    simp
  · intro f hf2
    exact selectAux_some_none line fs f hf2

/-- C3 fixture: nested scopes `A = [1, 100]` and `B = [10, 20]`. -/
def c3b : HtmlNode :=
  .elem (some "#B") none
    (.cons (.elem none (some 10) .nil) (.cons (.elem none (some 20) .nil) .nil))

def c3a : HtmlNode :=
  .elem (some "#A") none
    (.cons (.elem none (some 1) .nil) (.cons c3b (.cons (.elem none (some 100) .nil) .nil)))

def c3file : HtmlNode := .elem none none (.cons c3a .nil)

/-- C3 witness: with nested scopes `A = [1, 100]` and `B = [10, 20]`, line 15
resolves to `B` (whose interval the theorem confirms contains 15 and has the
maximal start), line 50 to `A`, and line 200 to no scope. -/
theorem C3_witness :
    find_function_for_line "tip" (.ok c3file) "p.js" 15 =
      .ok (some ⟨"B", "p.js", 10, 20⟩) ∧
    (10 : Nat) ≤ 15 ∧ (15 : Nat) ≤ 20 ∧
    find_function_for_line "tip" (.ok c3file) "p.js" 50 =
      .ok (some ⟨"A", "p.js", 1, 100⟩) ∧
    find_function_for_line "tip" (.ok c3file) "p.js" 200 = .ok none := by
  have h := C3_enclosing_scope "tip" (.ok c3file) "p.js" 15
    [⟨"A", "p.js", 1, 100⟩, ⟨"B", "p.js", 10, 20⟩] (some ⟨"B", "p.js", 10, 20⟩) rfl rfl
  have hB := h.2 ⟨"B", "p.js", 10, 20⟩ rfl
  exact ⟨rfl, hB.1.1, hB.1.2, rfl, rfl⟩

/-- C4 counterexample: querying symbol `foo`, a hit lying in the Definitions
bucket of the different symbol `myfoo` is nevertheless taken as a candidate,
because the code only checks that the bucket key starts with `Definitions`
and ends with `foo)`. -/
theorem C4_counterexample :
    (⟨"a.rs", "x"⟩ : IndexHit) ∈
      candidates "foo" ⟨[⟨definitionsBucketKey "myfoo", [⟨"a.rs", "x"⟩]⟩], [], []⟩ ∧
    definitionsBucketKey "myfoo" ≠ definitionsBucketKey "foo" ∧
    ("myfoo" : String) ≠ "foo" := by
  exact ⟨by decide, by decide, by decide⟩

/-- C4 (amended): a hit is a candidate iff it lies in a bucket whose key
starts with `Definitions` and ends with the queried symbol name followed by
`)`; the exact Definitions bucket of the queried symbol always passes this
test, but so does the Definitions bucket of a different symbol whose name
has the queried name as a suffix. -/
theorem C4_bucket_key_amended :
    ∀ (symbol_name : String) (res : IndexResults) (hit : IndexHit),
      (hit ∈ candidates symbol_name res ↔
        ∃ b, b ∈ allBuckets res ∧ isDefBucket symbol_name b.key = true ∧ hit ∈ b.values) ∧
      isDefBucket symbol_name (definitionsBucketKey symbol_name) = true :=
  fun s res hit => ⟨mem_candidates s res hit, isDefBucket_of_exact s⟩

/-- C4 fixture: a payload with exactly the Definitions bucket of `foo`. -/
def resC4w : IndexResults :=
  ⟨[⟨"Definitions (foo)", [⟨"a.cpp", "int foo(int x)"⟩]⟩], [], []⟩

/-- C4 witness: a hit in the exact `Definitions (foo)` bucket is a candidate
for the query `foo`, and the exact bucket key passes the code's test. -/
theorem C4_witness :
    (⟨"a.cpp", "int foo(int x)"⟩ : IndexHit) ∈ candidates "foo" resC4w ∧
    isDefBucket "foo" (definitionsBucketKey "foo") = true := by
  have h := C4_bucket_key_amended "foo" resC4w ⟨"a.cpp", "int foo(int x)"⟩
  refine ⟨h.1.mpr ⟨⟨"Definitions (foo)", [⟨"a.cpp", "int foo(int x)"⟩]⟩,
    by decide, by decide, by decide⟩, h.2⟩

/-- C5: the end bound passed to the line-range extractor is `endLine + 1`
when the scope's start and end differ and the unmodified `endLine` when they
are equal; consequently `extractSource` at `start = end` returns the empty
sequence, and a `[10, 20]` scope — expanded to the bound 21 — yields exactly
11 lines. -/
theorem C5_end_bound :
    ∀ (d : Func) (ls : List String) (s : Nat),
      (d.start ≠ d.end_ → endBound d = d.end_ + 1) ∧
      (d.start = d.end_ → endBound d = d.end_) ∧
      extract_source ls s s = [] ∧
      (20 ≤ ls.length → (extract_source ls 10 21).length = 11) := by
  intro d ls s
  refine ⟨?_, ?_, extract_source_self ls s, ?_⟩
  · intro h
    unfold endBound
    rw [if_pos (fun e => h e.symm)]
  · intro h
    unfold endBound
    rw [if_neg (by omega)]
  · intro h
    unfold extract_source
    rw [List.length_drop, List.length_take]
    omega

/-- C5 witness: for a `[3, 7]` scope the passed bound is 8; over a 25-line
file, `extractSource` with `start = end = 10` is empty and with bounds
`[10, 21)` has exactly 11 lines. -/
theorem C5_witness :
    endBound ⟨"f", "p", 3, 7⟩ = 8 ∧
    extract_source (List.replicate 25 "x") 10 10 = [] ∧
    (extract_source (List.replicate 25 "x") 10 21).length = 11 := by
  have h := C5_end_bound ⟨"f", "p", 3, 7⟩ (List.replicate 25 "x") 10
  exact ⟨h.1 (by decide), h.2.2.1, h.2.2.2 (by decide)⟩

/-- C6: a candidate hit whose line does not contain the symbol name is
rejected with the heuristic never consulted (`classifyHit` evaluates the
substring test to the left of the heuristic, mirroring the `continue` that
precedes the `if`/`elif` chain), and the classifier's path set is exactly
the deduplicated path set of the accepted hits: membership is equivalent to
having an accepted hit with that path, and no path occurs twice. -/
theorem C6_filter_and_path_set :
    ∀ (symbol_name : String) (res : IndexResults),
      (∀ hit, hit ∈ candidates symbol_name res →
        containsSub hit.line symbol_name = false →
        classifyHit symbol_name hit = false ∧ hit ∉ definitionsOf symbol_name res) ∧
      (∀ p, p ∈ classify symbol_name res ↔
        ∃ h, h ∈ definitionsOf symbol_name res ∧ h.path = p) ∧
      (classify symbol_name res).Nodup := by
  intro s res
  refine ⟨?_, ?_, nodup_dedup _⟩
  · intro hit hc hsub
    have hcl : classifyHit s hit = false := by
      unfold classifyHit
      rw [hsub]
      rfl
    refine ⟨hcl, ?_⟩
    intro hmem
    have hacc := (List.mem_filter.mp hmem).2
    rw [hcl] at hacc
    exact Bool.noConfusion hacc
  · intro p
    unfold classify
    rw [mem_dedup, List.mem_map]

/-- C6 fixture: one Definitions bucket with an accepted C++ hit, a rejected
C++ hit (line contains `foo` only inside `foo_val`), and a hit whose line
does not contain `foo` at all. -/
def resC6 : IndexResults :=
  ⟨[⟨"Definitions (foo)",
      [⟨"a.cpp", "int foo(int x)"⟩, ⟨"b.cpp", "x = foo_val"⟩, ⟨"c.cpp", "int bar(y)"⟩]⟩],
    [], []⟩

/-- C6 witness: the no-substring hit is rejected before the heuristic, the
accepted hit's path is in the output, the rejected hit's path is not, and
the output has no duplicates. -/
theorem C6_witness :
    classifyHit "foo" ⟨"c.cpp", "int bar(y)"⟩ = false ∧
    (⟨"c.cpp", "int bar(y)"⟩ : IndexHit) ∉ definitionsOf "foo" resC6 ∧
    "a.cpp" ∈ classify "foo" resC6 ∧
    "b.cpp" ∉ classify "foo" resC6 ∧
    (classify "foo" resC6).Nodup := by
  have h := C6_filter_and_path_set "foo" resC6
  have h1 := h.1 ⟨"c.cpp", "int bar(y)"⟩ (by decide) (by decide)
  refine ⟨h1.1, h1.2, ?_, by decide, h.2.2⟩
  exact (h.2.1 "a.cpp").mpr ⟨⟨"a.cpp", "int foo(int x)"⟩, by decide, rfl⟩

/-- C7: a 404 rendered-file-view response makes the scope listing return the
empty list — not an error — and resolve-by-line consequently returns the
empty result list. -/
theorem C7_file_view_404 :
    ∀ (get_file : String → String → Except ApiError String)
      (commit_hash path : String) (symbol_name : Option String) (line : Nat),
      get_functions commit_hash .notFound path symbol_name = .ok [] ∧
      find_function_for_line commit_hash .notFound path line = .ok none ∧
      get_function_by_line get_file commit_hash .notFound path line = .ok [] :=
  fun _ _ _ _ _ => ⟨rfl, rfl, rfl⟩

/-- C8: when resolve-by-line finds an enclosing scope but the raw-content
fetch for its path fails, the failure propagates out of `get_function_by_line`
and is never converted into an `ok` result (in particular not into the empty
list). -/
theorem C8_raw_fetch_propagates :
    ∀ (get_file : String → String → Except ApiError String) (commit_hash : String)
      (resp : FileViewResponse) (path : String) (line : Nat) (d : Func) (err : ApiError),
      find_function_for_line (orTip commit_hash) resp path line = .ok (some d) →
      get_file (orTip commit_hash) d.path = .error err →
      get_function_by_line get_file commit_hash resp path line = .error err ∧
      ∀ fns, get_function_by_line get_file commit_hash resp path line ≠ .ok fns := by
  intro gf c resp path line d err h1 h2
  have hmain : get_function_by_line gf c resp path line = .error err := by
    simp only [get_function_by_line, h1]
    simp only [definitions_to_results, h2]
  refine ⟨hmain, ?_⟩
  intro fns hok
  rw [hmain] at hok
  exact Except.noConfusion hok

/-- C8 fixture: a rendered file view with one scope `[1, 10]`. -/
def c8wrap : HtmlNode :=
  .elem (some "#f") none
    (.cons (.elem none (some 1) .nil) (.cons (.elem none (some 10) .nil) .nil))

def c8file : HtmlNode := .elem none none (.cons c8wrap .nil)

/-- C8 witness: with a failing raw-content fetch, resolve-by-line on a line
inside the scope returns that failure. -/
theorem C8_witness :
    get_function_by_line (fun _ _ => .error (.fetchFailure "not found")) "" (.ok c8file)
      "p" 5 = .error (.fetchFailure "not found") :=
  (C8_raw_fetch_propagates (fun _ _ => .error (.fetchFailure "not found")) "" (.ok c8file)
    "p" 5 ⟨"f", "p", 1, 10⟩ (.fetchFailure "not found") rfl rfl).1

/-- C9: the revision argument influences neither the queried URLs nor the
scope listing, line resolution, or classifier-driven search output; only the
raw-content fetch consumes it, through `commit_hash or "tip"`, whose
sentinel substitution happens exactly on the empty identifier. -/
theorem C9_revision_independent :
    (∀ c₁ c₂ path, get_functions_url c₁ path = get_functions_url c₂ path) ∧
    (∀ c₁ c₂ symbol_name, search_url c₁ symbol_name = search_url c₂ symbol_name) ∧
    (∀ c₁ c₂ resp path s, get_functions c₁ resp path s = get_functions c₂ resp path s) ∧
    (∀ c₁ c₂ resp path line,
      find_function_for_line c₁ resp path line = find_function_for_line c₂ resp path line) ∧
    (∀ c₁ c₂ fileResp results symbol_name,
      search c₁ fileResp results symbol_name = search c₂ fileResp results symbol_name) ∧
    (∀ get_file c defs, definitions_to_results get_file c defs =
      definitions_to_results get_file (orTip c) defs) ∧
    orTip "" = "tip" := by
  refine ⟨fun _ _ _ => rfl, fun _ _ _ => rfl, fun _ _ _ _ _ => rfl, fun _ _ _ _ _ => rfl,
    ?_, ?_, rfl⟩
  · intro c₁ c₂ fileResp results symbol_name
    unfold search
    exact searchPaths_commit fileResp symbol_name c₁ c₂ _
  · intro gf c defs
    exact dtr_orTip gf c defs

/-- C10: every entry of the scope listing takes its name from the
`data-nesting-sym` attribute of its annotation element with exactly the
first character removed; for a non-empty attribute the name is never the
full attribute value. -/
theorem C10_name_strips_sigil :
    ∀ (commit_hash : String) (file : HtmlNode) (path : String)
      (symbol_name : Option String) (fs : List Func) (f : Func),
      get_functions commit_hash (.ok file) path symbol_name = .ok fs → f ∈ fs →
      ∃ e a, e ∈ sym_wraps symbol_name file ∧ e.symAttr = some a ∧
        f.name = dropFirst a ∧ (a ≠ "" → f.name ≠ a) := by
  intro c file path s fs f h hf
  have h' : collectFuncs path (sym_wraps s file) = .ok fs := h
  obtain ⟨e, he, hnf⟩ := collectFuncs_mem path (sym_wraps s file) fs f h' hf
  unfold nodeFunc at hnf
  cases hsym : e.symAttr with
  | none =>
    rw [hsym] at hnf
    simp at hnf
  | some a =>
    rw [hsym] at hnf
    split at hnf
    · exact absurd hnf (by simp)
    · rename_i a2 heq2
      injection heq2 with heq2
      subst heq2
      split at hnf
      · injection hnf with hnf
        subst hnf
        exact ⟨e, a, he, hsym, rfl, fun hne => dropFirst_ne a hne⟩
      · exact absurd hnf (by simp)

/-- C10 fixture: a file view with one annotation whose qualified symbol is
`#Sym`. -/
def c10wrap : HtmlNode :=
  .elem (some "#Sym") none (.cons (.elem none (some 3) .nil) .nil)

def c10file : HtmlNode := .elem none none (.cons c10wrap .nil)

/-- C10 witness: the annotation `#Sym` yields the name `Sym` — the attribute
with its leading sigil stripped, distinct from the full attribute value. -/
theorem C10_witness :
    get_functions "c" (.ok c10file) "p" none = .ok [⟨"Sym", "p", 3, 3⟩] ∧
    (⟨"Sym", "p", 3, 3⟩ : Func).name = dropFirst "#Sym" ∧
    dropFirst "#Sym" = "Sym" ∧
    ("Sym" : String) ≠ "#Sym" := by
  obtain ⟨e, a, he, hsym, hname, hne⟩ := C10_name_strips_sigil "c" c10file "p" none
    [⟨"Sym", "p", 3, 3⟩] ⟨"Sym", "p", 3, 3⟩ rfl (by simp)
  have he3 : e = c10wrap := by
    have he2 : e ∈ [c10wrap] := he
    simpa using he2
  subst he3
  have ha : a = "#Sym" := by
    have h2 : (some "#Sym" : Option String) = some a := hsym
    injection h2 with h2
    exact h2.symm
  subst ha
  exact ⟨rfl, hname, by decide, hne (by decide)⟩

end Searchfox
